import Mathlib

/-!
Verification of the LanAudit serial-console core against its specification.

The development shallowly embeds the Go sources of the repository:
strings and byte slices become `List Char`, `float64` scores become `ℚ`,
and fallible operations return `Option` values.  Regular expressions that
the verified claims exercise concretely (the Cisco prompt guard, the ANSI
CSI stripper, the IPv4 and MAC redaction patterns) are implemented as
deterministic scanners that follow Go's leftmost-first match semantics
for those patterns; regexes whose identity never matters to a claim are
abstracted as match functions and universally quantified.
-/

set_option maxRecDepth 10000

/-- Character class used by Go `unicode.IsSpace` restricted to the
Latin-1 range, which is what `strings.TrimSpace` trims for the inputs
appearing in this development. -/
def isGoSpace (c : Char) : Bool :=
  c = ' ' || c = '\t' || c = '\n' || c = '\r' ||
  c = '\x0b' || c = '\x0c' || c = '\x85' || c = '\xa0'

/-- Embedding of Go `strings.TrimSpace` on `List Char`. -/
def trim (l : List Char) : List Char :=
  ((l.dropWhile isGoSpace).reverse.dropWhile isGoSpace).reverse

/-- Embedding of Go `strings.HasSuffix`. -/
def hasSuffixL (s suff : List Char) : Bool :=
  decide (suff.length ≤ s.length) && decide (s.drop (s.length - suff.length) = suff)

/-- Embedding of Go `strings.Contains` (substring test). -/
def containsL (s sub : List Char) : Bool :=
  match s with
  | [] => sub.isEmpty
  | _ :: t => List.isPrefixOf sub s || containsL t sub

/-! ## Serial session (`internal/console/session.go`) -/

/-- Embedding of the `CRLFMode == "CRLF"` branch of
`Session.transformLineEndings`: the Go loop appends `\r\n` for every
`\n` byte and copies every other byte. -/
def crlfExpand : List Char → List Char
  | [] => []
  | b :: rest =>
    if b = '\n' then '\r' :: '\n' :: crlfExpand rest else b :: crlfExpand rest

/-- Embedding of `Session.transformLineEndings` (session.go): dispatch
on the configured CR/LF mode string. -/
def transformLineEndings (mode : List Char) (data : List Char) : List Char :=
  if mode = "CRLF".data then crlfExpand data
  else if mode = "CR".data then data.map (fun b => if b = '\n' then '\r' else b)
  else data

/-- Embedding of `Session.Write`'s effect on the wire: the bytes handed
to the OS port are exactly the CR/LF-transformed input. -/
def writeWireBytes (mode : List Char) (data : List Char) : List Char :=
  transformLineEndings mode data

/-- Embedding of `matchesTerminator` (session.go): the accumulated
output is trimmed, each non-empty terminator is trimmed, and a suffix
comparison decides the match. -/
def matchesTerminator (out : List Char) (terms : List (List Char)) : Bool :=
  let trimmed := trim out
  terms.any (fun term =>
    if term.length = 0 then false
    else hasSuffixL trimmed (trim term))

/-- Events observed by the `ReadUntil` select loop. -/
inductive ReadEvent where
  | chunk : List Char → ReadEvent
  | timerFired : ReadEvent
  | ctxDone : ReadEvent

/-- Typed errors returned by `ReadUntil`. -/
inductive ReadErr where
  | readTimeout : ReadErr
  | sessionClosed : ReadErr
deriving DecidableEq

/-- Embedding of `Session.ReadUntil`'s select loop (session.go): the
watcher channel is modelled as the list of events delivered to the
loop.  Empty chunks are skipped, each non-empty chunk is appended to the
accumulator, and the terminator check runs when the terminator list is
non-empty.  An exhausted event list behaves like the timer firing. -/
def ReadUntil (terms : List (List Char)) : List ReadEvent → List Char → List Char × Option ReadErr
  | [], acc => (acc, some ReadErr.readTimeout)
  | ReadEvent.ctxDone :: _, acc => (acc, some ReadErr.sessionClosed)
  | ReadEvent.timerFired :: _, acc => (acc, some ReadErr.readTimeout)
  | ReadEvent.chunk d :: evs, acc =>
    if d.length = 0 then ReadUntil terms evs acc
    else
      let acc2 := acc ++ d
      if terms.length = 0 then ReadUntil terms evs acc2
      else if matchesTerminator acc2 terms then (acc2, none)
      else ReadUntil terms evs acc2

/-- Port model for BREAK emulation: which target bauds `SetMode`
accepts. -/
structure PortModel where
  setModeOk : Nat → Bool

/-- Observable outcome of `emulateBreak`: whether an error was
reported, the successful mode switches in order, the number of NUL
bytes written, and the baud the port is left at. -/
structure BreakOutcome where
  err : Bool
  modeSets : List Nat
  nuls : Nat
  finalBaud : Nat
deriving DecidableEq

/-- Embedding of `Session.emulateBreak` (session.go): lower the baud to
`baud / 10`, write `duration.Milliseconds() / 10` NUL bytes (at least
one), then restore the original baud; the restore error is returned to
the caller. -/
def emulateBreak (baud : Nat) (durationMs : Nat) (port : PortModel) : BreakOutcome :=
  let lowered := baud / 10
  if port.setModeOk lowered = false then
    { err := true, modeSets := [], nuls := 0, finalBaud := baud }
  else
    let n0 := durationMs / 10
    let nulls := if n0 < 1 then 1 else n0
    if port.setModeOk baud then
      { err := false, modeSets := [lowered, baud], nuls := nulls, finalBaud := baud }
    else
      { err := true, modeSets := [lowered], nuls := nulls, finalBaud := lowered }

/-- Embedding of the per-rune filter inside `cleanSerialData`
(discover/probe file): CR, LF and TAB survive, printable ASCII and the
range U+0080 .. U+FFFC survive, ESC survives, everything else becomes a
space. -/
def cleanRune (r : Char) : Char :=
  if r = '\r' || r = '\n' || r = '\t' then r
  else if 32 ≤ r.toNat ∧ r.toNat ≤ 126 then r
  else if 128 ≤ r.toNat ∧ r.toNat < 0xFFFD then r
  else if r = '\x1b' then r
  else ' '

/-- Embedding of `cleanSerialData`. -/
def cleanSerialData (data : List Char) : List Char :=
  data.map cleanRune

/-- Embedding of the success heuristic at the end of `probeSingleBaud`:
at least 10 bytes read and the whitespace-trimmed cleaned text longer
than 5 characters. -/
def probeSingleBaudSuccess (raw : List Char) : Bool :=
  decide (10 ≤ raw.length) && decide (5 < (trim (cleanSerialData raw)).length)

/-- Embedding of the baud loop of `ProbePort`: the serial line is
abstracted as an oracle from baud to the raw bytes that attempt
collects; the first baud whose attempt passes the success heuristic is
returned. -/
def ProbePort (oracle : Nat → List Char) : List Nat → Option Nat
  | [] => none
  | b :: rest =>
    if probeSingleBaudSuccess (oracle b) then some b else ProbePort oracle rest

/-! ## Fingerprint engine (`internal/console/fingerprint`) -/

/-- Go declares `Stage` as a string type; its values are the four stage
constants and the zero value is the empty string. -/
def StagePreLogin : List Char := "prelogin".data

/-- Stage constant for the login stage. -/
def StageLogin : List Char := "login".data

/-- Stage constant for the interactive-prompt stage. -/
def StagePrompt : List Char := "prompt".data

/-- Stage constant for the bootloader stage. -/
def StageBoot : List Char := "bootloader".data

/-- Embedding of `clamp01` (engine.go) over the rational embedding of
`float64`. -/
def clamp01 (v : ℚ) : ℚ :=
  if v < 0 then 0 else if 1 < v then 1 else v

/-- Loop of `dedupeStrings` (engine.go) with the explicit seen set:
each entry is trimmed, empty entries are dropped, repeats are
dropped. -/
def dedupeAux (seen : List (List Char)) : List (List Char) → List (List Char)
  | [] => []
  | v :: rest =>
    let v' := trim v
    if v' = [] then dedupeAux seen rest
    else if v' ∈ seen then dedupeAux seen rest
    else v' :: dedupeAux (v' :: seen) rest

/-- Embedding of `dedupeStrings` (engine.go). -/
def dedupeStrings (l : List (List Char)) : List (List Char) :=
  dedupeAux [] l

/-- Embedding of `shortlistEvidence` (engine.go): dedupe then keep at
most three entries. -/
def shortlistEvidence (evs : List (List Char)) : List (List Char) :=
  if 3 < (dedupeStrings evs).length then (dedupeStrings evs).take 3
  else dedupeStrings evs

/-! ### Normalizer (`prompts.go`) -/

/-- Character class `[0-9;]` of the ANSI CSI regex. -/
def isCsiParam (c : Char) : Bool :=
  c.isDigit || c = ';'

/-- Length of the leading run of CSI parameter characters. -/
def csiParamRun : List Char → Nat
  | [] => 0
  | c :: rest => if isCsiParam c then csiParamRun rest + 1 else 0

/-- Attempt to match the tail of the CSI regex
`\x1b\[[0-9;]*[A-Za-z]` after the ESC byte: an opening bracket, a
greedy run of parameter characters, one ASCII letter.  Returns the
number of characters the match consumes after the ESC. -/
def tryCsi (l : List Char) : Option Nat :=
  match l with
  | '[' :: t =>
    let r := csiParamRun t
    match t[r]? with
    | some c => if c.isAlpha then some (1 + r + 1) else none
    | none => none
  | _ => none

/-- Embedding of `ansiRegexp.ReplaceAllString(in, "")` in `Normalize`
(prompts.go): the leftmost-first scan drops every CSI match and keeps
all other characters. -/
def ansiStrip : List Char → List Char
  | [] => []
  | c :: rest =>
    if c = '\x1b' then
      match tryCsi rest with
      | some k => ansiStrip (rest.drop k)
      | none => c :: ansiStrip rest
    else c :: ansiStrip rest
termination_by l => l.length
decreasing_by
  · simp only [List.length_drop, List.length_cons]
    omega
  · simp
  · simp

/-- Embedding of `strings.ReplaceAll(cleaned, "\r\n", "\n")`:
non-overlapping leftmost replacement. -/
def replaceCrlf : List Char → List Char
  | [] => []
  | '\r' :: '\n' :: rest => '\n' :: replaceCrlf rest
  | c :: rest => c :: replaceCrlf rest

/-- Embedding of `Normalize` (prompts.go): strip CSI sequences, turn
`\r\n` then lone `\r` into `\n`, and drop NUL characters. -/
def Normalize (input : List Char) : List Char :=
  if input = [] then []
  else
    ((replaceCrlf (ansiStrip input)).map
      (fun c => if c = '\r' then '\n' else c)).filter (fun c => c ≠ '\x00')

/-- Embedding of `ExtractLastPromptLine` (prompts.go): last line whose
trimmed form is non-empty, trimmed. -/
def ExtractLastPromptLine (rx : List Char) : List Char :=
  match (rx.splitOn '\n').reverse.find? (fun l => trim l ≠ []) with
  | some l => trim l
  | none => []

/-! ### Safe probes (`safeprobe.go`) -/

/-- Embedding of `SafeProbe` (safeprobe.go).  The `Expect` and
`Scrape` regexes are abstracted as a match predicate and a
first-capture-group extractor respectively; `Guard` is an optional
match predicate. -/
structure SafeProbe where
  Name : List Char
  Command : List Char
  Expect : List (List Char → Bool)
  Scrape : List (List Char → Option (List Char))
  Guard : Option (List Char → Bool)
  TimeoutMs : Nat

/-- Embedding of `SafeProbe.Score`: 0.2 when any expect pattern
matches the output, 0 otherwise. -/
def SafeProbe.Score (sp : SafeProbe) (out : List Char) : ℚ :=
  if sp.Expect.any (fun f => f out) then 0.2 else 0

/-- Embedding of `SafeProbe.ScrapeModel`: trimmed first capture of the
first scrape pattern that matches with a capture group. -/
def SafeProbe.ScrapeModel (sp : SafeProbe) (out : List Char) : List Char :=
  match sp.Scrape.findSome? (fun f => f out) with
  | some m => trim m
  | none => []

/-- Embedding of `Candidate` (engine.go); `stage`'s zero value is the
empty string, as in Go. -/
structure Candidate where
  Vendor : List Char
  OS : List Char
  Prob : ℚ
  Evidence : List (List Char)
  NextSafeProbe : Option SafeProbe
  stage : List Char
  Prompt : List Char

/-- Behaviour of the console session seen by `MaybeProbe`: whether
`Write` succeeds, and what `ReadUntil` returns with whether it
succeeded. -/
structure SessionBeh where
  writeOk : Bool
  readData : List Char
  readOk : Bool

/-- Side effects `MaybeProbe` performed on the session: the byte
strings written and the number of `ReadUntil` calls. -/
structure SessionTrace where
  writes : List (List Char)
  readCalls : Nat
deriving DecidableEq

/-- Errors surfaced by `MaybeProbe`. -/
inductive ProbeErr where
  | writeFailed : ProbeErr
  | readFailed : ProbeErr
deriving DecidableEq

/-- The terminator list `MaybeProbe` passes to `ReadUntil`
(engine.go line 123). -/
def probeTerminators : List (List Char) :=
  ["#".data, ">".data, "$".data, "\n".data]

/-- Embedding of `MaybeProbe` (engine.go).  The decision sequence
follows the source exactly: nil session or missing probe, stage not
`Prompt`, probability below 0.55, guard mismatch — each returns
`("", nil, nil)` before any session interaction.  Afterwards the
command (suffixed with CRLF when it does not already end in a newline)
is written, the response is read, and the candidate is re-scored. -/
def MaybeProbe (hasSess : Bool) (beh : SessionBeh) (cand : Candidate) :
    (List Char × Option Candidate × Option ProbeErr) × SessionTrace :=
  if !hasSess || cand.NextSafeProbe.isNone then (([], none, none), ⟨[], 0⟩)
  else
    match cand.NextSafeProbe with
    | none => (([], none, none), ⟨[], 0⟩)
    | some probe =>
      if cand.stage ≠ StagePrompt then (([], none, none), ⟨[], 0⟩)
      else if cand.Prob < 0.55 then (([], none, none), ⟨[], 0⟩)
      else if probe.Guard.any (fun g => ! g cand.Prompt) then (([], none, none), ⟨[], 0⟩)
      else
        let cmd := if hasSuffixL probe.Command ("\n".data) then probe.Command
                   else probe.Command ++ ("\r\n".data)
        if beh.writeOk = false then
          (([], none, some ProbeErr.writeFailed), ⟨[cmd], 0⟩)
        else
          let output := beh.readData
          if beh.readOk = false then
            ((output, none, some ProbeErr.readFailed), ⟨[cmd], 1⟩)
          else
            let boost := probe.Score output
            let updated :=
              if 0 < boost then
                { cand with Prob := clamp01 (cand.Prob + boost),
                            Evidence := cand.Evidence ++ [probe.Name ++ (" probe expect matched".data)] }
              else
                { cand with Evidence := cand.Evidence ++ [probe.Name ++ (" probe output recorded".data)] }
            let updated2 :=
              let m := probe.ScrapeModel output
              if m ≠ [] then
                { updated with Evidence := updated.Evidence ++ [("model: ".data) ++ m] }
              else updated
            ((output, some updated2, none), ⟨[cmd], 1⟩)

/-! ### Signature registry and scorer (`registry.go`) -/

/-- Embedding of `regexPattern` (registry.go) with the regex
abstracted as a match predicate. -/
structure RegexPat where
  Label : List Char
  MatchFn : List Char → Bool

/-- Embedding of `Signature` (registry.go). -/
structure Signature where
  Vendor : List Char
  OS : List Char
  PreLogin : List RegexPat
  Login : List RegexPat
  Prompt : List RegexPat
  VersionScrape : List (List Char → Option (List Char))
  safeProbe : Option SafeProbe
  Weight : ℚ

/-- Loop body of `GetCandidates` for one signature: walk the three
pattern lists, stopping at the first match of each; accumulate the
score additions and evidence labels; emit a candidate only when some
pattern fired. -/
def scoreSignature (sig : Signature) (rx prompt : List Char) : Option Candidate :=
  let pre := sig.PreLogin.find? (fun p => p.MatchFn rx)
  let lo := sig.Login.find? (fun p => p.MatchFn rx)
  let pr := sig.Prompt.find? (fun p => p.MatchFn prompt)
  let score := sig.Weight + (if pre.isSome then (0.5 : ℚ) else 0) +
    (if lo.isSome then (0.2 : ℚ) else 0) + (if pr.isSome then (0.35 : ℚ) else 0)
  let evidence :=
    (pre.map (fun p => ("prelogin: ".data) ++ p.Label)).toList ++
    (lo.map (fun p => ("login: ".data) ++ p.Label)).toList ++
    (pr.map (fun p => ("prompt: ".data) ++ p.Label)).toList
  if pre.isSome || lo.isSome || pr.isSome then
    some { Vendor := sig.Vendor, OS := sig.OS, Prob := clamp01 score,
           Evidence := evidence, NextSafeProbe := sig.safeProbe,
           stage := [], Prompt := [] }
  else none

/-- Embedding of `GetCandidates` (registry.go) over an explicit
registry list. -/
def GetCandidates (registry : List Signature) (rx prompt : List Char) : List Candidate :=
  registry.filterMap (fun sig => scoreSignature sig rx prompt)

/-- Embedding of `lookupSignature` (registry.go). -/
def lookupSignature (registry : List Signature) (vendor os : List Char) : Option Signature :=
  registry.find? (fun sig => decide (sig.Vendor = vendor) && decide (sig.OS = os))

/-- Embedding of `scrapeModel` (registry.go): trimmed first capture of
the matched signature's version-scrape patterns. -/
def scrapeModel (registry : List Signature) (text : List Char) (cand : Candidate) : List Char :=
  match lookupSignature registry cand.Vendor cand.OS with
  | none => []
  | some sig =>
    match sig.VersionScrape.findSome? (fun f => f text) with
    | some m => trim m
    | none => []

/-- Embedding of `Result` (engine.go). -/
structure Result where
  Vendor : List Char
  OS : List Char
  Model : List Char
  Prompt : List Char
  Stage : List Char
  Baud : Nat
  Confidence : ℚ
  Evidence : List (List Char)

/-- Embedding of `Finalize` (engine.go). -/
def Finalize (registry : List Signature) (stage : List Char) (cands : List Candidate)
    (rx prompt probeOut : List Char) : Result :=
  let base : Result :=
    { Vendor := [], OS := [], Model := [], Prompt := trim prompt,
      Stage := stage, Baud := 0, Confidence := 0, Evidence := [] }
  match cands with
  | [] =>
    { base with Vendor := "Unknown".data, OS := "Unknown".data,
                Evidence := shortlistEvidence ["no candidates".data] }
  | top :: _ =>
    let r1 := { base with Vendor := top.Vendor, OS := top.OS,
                          Confidence := clamp01 top.Prob,
                          Evidence := shortlistEvidence top.Evidence }
    let r2 :=
      let m := scrapeModel registry rx top
      if m ≠ [] then { r1 with Model := m } else r1
    let r3 :=
      if r2.Model.isEmpty && !probeOut.isEmpty then
        { r2 with Model := scrapeModel registry probeOut top }
      else r2
    if probeOut ≠ [] then
      { r3 with Evidence := shortlistEvidence (r3.Evidence ++ ["probe output captured".data]) }
    else r3

/-! ### Cisco prompt guard (`safeprobe.go`, `guardCisco`)

The regex `(?m)^([A-Za-z0-9._-]+)(\((config[^\)]*)\))?[#>] ?$` is
implemented as a deterministic per-line parser.  Every quantifier in
the pattern is determinate: the name class excludes `(`, `#` and `>`,
so the greedy name run cannot usefully backtrack, and `[^\)]*` stops
exactly at the closing parenthesis. -/

/-- Length of the longest run of characters satisfying `p` at the head
of the list. -/
def runLength (p : Char → Bool) : List Char → Nat
  | [] => 0
  | c :: rest => if p c then runLength p rest + 1 else 0

/-- The character class `[A-Za-z0-9._-]` of the Cisco guard. -/
def nameClassC (c : Char) : Bool :=
  c.isAlphanum || c = '.' || c = '_' || c = '-'

/-- Parse the optional `(\(config[^\)]*\))?` group; returns the
remainder on success. -/
def tryConfigGroup (l : List Char) : Option (List Char) :=
  match l with
  | '(' :: t =>
    if t.take 6 = "config".data then
      let u := t.drop 6
      let m := runLength (fun c => c ≠ ')') u
      match u.drop m with
      | ')' :: v => some v
      | _ => none
    else none
  | _ => none

/-- Match one line against the Cisco guard pattern. -/
def ciscoGuardLine (l : List Char) : Bool :=
  let n := runLength nameClassC l
  if n = 0 then false
  else
    let r1 := l.drop n
    let r2 := match tryConfigGroup r1 with
      | some v => v
      | none => r1
    match r2 with
    | '#' :: rest2 => rest2 = [] || rest2 = [' ']
    | '>' :: rest2 => rest2 = [] || rest2 = [' ']
    | _ => false

/-- Embedding of `guardCisco.MatchString`: with `(?m)` the pattern can
match any newline-delimited line. -/
def ciscoGuardMatch (s : List Char) : Bool :=
  (s.splitOn '\n').any ciscoGuardLine

/-- The Cisco IOS `show version` safe probe (safeprobe.go).  The two
expect regexes are literal substrings and are embedded concretely; the
scrape regexes are abstracted as capture extractors. -/
def ciscoShowVersionProbe (scr : List (List Char → Option (List Char))) : SafeProbe :=
  { Name := "cisco_show_version".data
    Command := "show version".data
    Expect := [fun out => containsL out ("Cisco IOS Software".data),
               fun out => containsL out ("Configuration register".data)]
    Scrape := scr
    Guard := some ciscoGuardMatch
    TimeoutMs := 1200 }

/-- The configuration-mode prompt test the repository performs (only)
in the terminal UI (tui.go line 1699):
`strings.Contains(strings.ToLower(fp.Prompt), "(config")`. -/
def configModeCheck (prompt : List Char) : Bool :=
  containsL (prompt.map Char.toLower) ("(config".data)

/-! ## Snapshot store and redaction (`internal/store`, unnamed sources)

`scrubSensitive` applies `ipPattern.ReplaceAllString` and then
`macPattern.ReplaceAllString`.  Both patterns start with an ASCII word
boundary, so the replacement scan tracks one bit of state: whether the
previous character of the input was a word character. -/

/-- ASCII word characters, the `\w` class deciding Go's `\b`. -/
def isWordC (c : Char) : Bool :=
  c.isAlphanum || c = '_'

/-- Hexadecimal digits, the class `[0-9A-Fa-f]` of the MAC pattern. -/
def isHexC (c : Char) : Bool :=
  c.isDigit || (decide ('A' ≤ c) && decide (c ≤ 'F')) || (decide ('a' ≤ c) && decide (c ≤ 'f'))

/-- A trailing word boundary holds after the last matched character
when the next character is absent or not a word character. -/
def endBoundary : Option Char → Bool
  | none => true
  | some c => !(isWordC c)

/-- Match one inner octet `\d{1,3}\.` of the IPv4 pattern at the head
of the list; returns the consumed length (digits plus the dot).  The
digit run is maximal, which is forced: a shorter run leaves a digit
where the dot is required. -/
def octDot (l : List Char) : Option Nat :=
  let a := runLength Char.isDigit l
  if 1 ≤ a ∧ a ≤ 3 ∧ l[a]? = some '.' then some (a + 1) else none

/-- Match the final octet `\d{1,3}\b` of the IPv4 pattern. -/
def octEnd (l : List Char) : Option Nat :=
  let a := runLength Char.isDigit l
  if 1 ≤ a ∧ a ≤ 3 ∧ endBoundary l[a]? = true then some a else none

/-- Length of the match of `(?:\d{1,3}\.){3}\d{1,3}\b` at the head of
the list (the leading `\b` is checked by the scan). -/
def ipLen (l : List Char) : Option Nat :=
  match octDot l with
  | none => none
  | some n1 =>
    match octDot (l.drop n1) with
    | none => none
    | some n2 =>
      match octDot (l.drop (n1 + n2)) with
      | none => none
      | some n3 =>
        match octEnd (l.drop (n1 + n2 + n3)) with
        | none => none
        | some n4 => some (n1 + n2 + n3 + n4)

/-- One `hh:` unit of the MAC pattern: two hexadecimal characters
followed by a colon. -/
def hexPairColon (l : List Char) : Bool :=
  (l[0]?.any isHexC) && (l[1]?.any isHexC) && decide (l[2]? = some ':')

/-- The final `hh\b` unit of the MAC pattern. -/
def hexPairEnd (l : List Char) : Bool :=
  (l[0]?.any isHexC) && (l[1]?.any isHexC) && endBoundary l[2]?

/-- Length of the match of `[0-9A-Fa-f]{2}(?::[0-9A-Fa-f]{2}){5}\b` at
the head of the list: always 17 characters. -/
def macLen (l : List Char) : Option Nat :=
  if hexPairColon l && hexPairColon (l.drop 3) && hexPairColon (l.drop 6) &&
      hexPairColon (l.drop 9) && hexPairColon (l.drop 12) && hexPairEnd (l.drop 15)
  then some 17 else none

/-- The IPv4 replacement marker. -/
def REDIP : List Char := "[REDACTED-IP]".data

/-- The MAC replacement marker. -/
def REDMAC : List Char := "[REDACTED-MAC]".data

/-- Embedding of `Regexp.ReplaceAllString` for a pattern framed by
word boundaries whose first matched character is a word character: the
scan walks the input left to right, carrying whether the previous
input character was a word character; a match is replaced and the scan
resumes after it (the character before the next position is then the
last matched character, a word character).  The `max 1` guard only
serves termination; both patterns used here match at least two
characters. -/
def repAll (len : List Char → Option Nat) (rep : List Char) : Bool → List Char → List Char
  | _, [] => []
  | pw, c :: rest =>
    if pw = false ∧ (len (c :: rest)).isSome then
      rep ++ repAll len rep true ((c :: rest).drop (max 1 ((len (c :: rest)).getD 1)))
    else
      c :: repAll len rep (isWordC c) rest
termination_by _ l => l.length
decreasing_by
  · simp only [List.length_drop, List.length_cons]
    omega
  · simp

/-- Scan deciding that no boundary-respecting match of `len` occurs
anywhere in the list, carrying the previous-character word bit. -/
def noScan (len : List Char → Option Nat) : Bool → List Char → Bool
  | _, [] => true
  | pw, c :: rest => (pw || (len (c :: rest)).isNone) && noScan len (isWordC c) rest

/-- Embedding of `ipPattern.ReplaceAllString(input, "[REDACTED-IP]")`. -/
def ipReplaceAll (l : List Char) : List Char :=
  repAll ipLen REDIP false l

/-- Embedding of `macPattern.ReplaceAllString(s, "[REDACTED-MAC]")`. -/
def macReplaceAll (l : List Char) : List Char :=
  repAll macLen REDMAC false l

/-- Embedding of `scrubSensitive` (unnamed store source): IP pass then
MAC pass; the empty string short-circuits. -/
def scrubSensitive (input : List Char) : List Char :=
  if input = [] then input else macReplaceAll (ipReplaceAll input)

/-- Embedding of `redactEvidence`. -/
def redactEvidence (lines : List (List Char)) : List (List Char) :=
  if lines = [] then lines else lines.map scrubSensitive

/-- Embedding of `ConsoleFingerprint` (store source). -/
structure ConsoleFingerprint where
  Vendor : List Char
  OS : List Char
  Model : List Char
  Stage : List Char
  Prompt : List Char
  Baud : Nat
  Confidence : ℚ
  Evidence : List (List Char)

/-- Embedding of `ConsoleSnapshot` (store source). -/
structure ConsoleSnapshot where
  Port : List Char
  Baud : Nat
  Fingerprint : List Char
  Detail : Option ConsoleFingerprint
  BytesWritten : Nat
  BytesRead : Nat
  LogPath : List Char
  TranscriptHead : List Char
  TranscriptTail : List Char

/-- Embedding of the snapshot fields `redactSnapshot` interacts
with. -/
structure Snapshot where
  Hostname : List Char
  Redacted : Bool
  Console : Option ConsoleSnapshot

/-- Embedding of `redactSnapshot` (unnamed store source): set the
redacted flag, scrub the console fingerprint summary and, when present,
the detail's model, prompt, and evidence. -/
def redactSnapshot (snap : Snapshot) : Snapshot :=
  let redacted := { snap with Redacted := true }
  match snap.Console with
  | none => redacted
  | some c =>
    let cc := { c with Fingerprint := scrubSensitive c.Fingerprint }
    let cc2 :=
      match c.Detail with
      | none => cc
      | some d =>
        { cc with Detail := some { d with Model := scrubSensitive d.Model,
                                          Prompt := scrubSensitive d.Prompt,
                                          Evidence := redactEvidence d.Evidence } }
    { redacted with Console := some cc2 }

/-- Bundle of facts about a match-length function that the
replacement lemmas rely on; both `ipLen` and `macLen` satisfy it. -/
structure LenOK (len : List Char → Option Nat) : Prop where
  ge2 : ∀ l n, len l = some n → 2 ≤ n
  le_len : ∀ l n, len l = some n → n ≤ l.length
  startWord : ∀ l n, len l = some n → (l[0]?.any isWordC) = true
  noBracket : ∀ l n i, len l = some n → i < n → l[i]? ≠ some '\x5b'
  lastWord : ∀ l n, len l = some n → (l[n - 1]?.any isWordC) = true
  endB : ∀ l n, len l = some n → endBoundary l[n]? = true
  congr : ∀ l l' n, len l = some n → (∀ i, i ≤ n → l[i]? = l'[i]?) → len l' = some n

/-! ## General lemmas -/

theorem clamp01_nonneg (v : ℚ) : 0 ≤ clamp01 v := by
  unfold clamp01
  split_ifs with h1 h2 <;> linarith

theorem clamp01_le_one (v : ℚ) : clamp01 v ≤ 1 := by
  unfold clamp01
  split_ifs with h1 h2 <;> linarith

theorem dedupeAux_nodup_and_fresh (l : List (List Char)) :
    ∀ seen, (dedupeAux seen l).Nodup ∧ ∀ x ∈ dedupeAux seen l, x ∉ seen := by
  induction l with
  | nil => intro seen; simp [dedupeAux]
  | cons v rest ih =>
    intro seen
    rw [dedupeAux]
    split_ifs with h1 h2
    · exact ih seen
    · exact ih seen
    · obtain ⟨hnd, hfresh⟩ := ih (trim v :: seen)
      refine ⟨List.nodup_cons.mpr ⟨fun hmem => ?_, hnd⟩, ?_⟩
      · exact (hfresh _ hmem) (List.mem_cons_self _ _)
      · intro x hx
        rcases List.mem_cons.mp hx with rfl | hx'
        · exact h2
        · exact fun hseen => (hfresh _ hx') (List.mem_cons_of_mem _ hseen)

theorem dedupeStrings_nodup (l : List (List Char)) : (dedupeStrings l).Nodup :=
  (dedupeAux_nodup_and_fresh l []).1

theorem shortlistEvidence_nodup (evs : List (List Char)) : (shortlistEvidence evs).Nodup := by
  unfold shortlistEvidence
  split_ifs with h
  · exact (dedupeStrings_nodup evs).sublist (List.take_sublist _ _)
  · exact dedupeStrings_nodup evs


theorem shortlistEvidence_length_le (evs : List (List Char)) :
    (shortlistEvidence evs).length ≤ 3 := by
  unfold shortlistEvidence
  split_ifs with h
  · simp only [List.length_take]
    exact Nat.min_le_left 3 _
  · omega

/-! ## Claim C2: CR/LF translation -/

theorem crlfExpand_no_nl (u : List Char) (h : '\n' ∉ u) : crlfExpand u = u := by
  induction u with
  | nil => rfl
  | cons c rest ih =>
    rw [crlfExpand]
    have hc : c ≠ '\n' := fun hEq => h (hEq ▸ List.mem_cons_self _ _)
    rw [if_neg hc, ih (fun hm => h (List.mem_cons_of_mem _ hm))]

theorem crlfExpand_append_nl (u v : List Char) (h : '\n' ∉ u) :
    crlfExpand (u ++ '\n' :: v) = u ++ '\r' :: '\n' :: crlfExpand v := by
  induction u with
  | nil => simp [crlfExpand]
  | cons c rest ih =>
    have hc : c ≠ '\n' := fun hEq => h (hEq ▸ List.mem_cons_self _ _)
    rw [List.cons_append, crlfExpand, if_neg hc,
      ih (fun hm => h (List.mem_cons_of_mem _ hm)), List.cons_append]

/-- Claim C2, counterexample: in CRLF mode the write of `"a\nb\r\nc"`
puts `"a\r\nb\r\r\nc"` on the wire, not the claimed `"a\r\nb\r\nc"`:
the `\n` of the existing `\r\n` pair is also expanded. -/
theorem c2_crlf_write_counterexample :
    writeWireBytes ("CRLF".data) ("a\nb\r\nc".data) = "a\r\nb\r\r\nc".data ∧
    writeWireBytes ("CRLF".data) ("a\nb\r\nc".data) ≠ "a\r\nb\r\nc".data := by
  constructor <;> decide

/-- Claim C2, amended: a session Write in CRLF mode translates every
`\n` — lone or part of an existing `\r\n` pair — into `\r\n` (so
`\r\n` becomes `\r\r\n`), leaves newline-free spans unchanged, and in
particular a CRLF-mode write of `"a\nb\r\nc"` puts exactly the bytes
`"a\r\nb\r\r\nc"` on the wire. -/
theorem c2_crlf_write_expands_every_newline :
    (∀ u v : List Char, '\n' ∉ u →
      writeWireBytes ("CRLF".data) (u ++ '\n' :: v) =
        u ++ '\r' :: '\n' :: writeWireBytes ("CRLF".data) v) ∧
    (∀ u : List Char, '\n' ∉ u → writeWireBytes ("CRLF".data) u = u) ∧
    writeWireBytes ("CRLF".data) ("a\nb\r\nc".data) = "a\r\nb\r\r\nc".data := by
  refine ⟨?_, ?_, by decide⟩
  · intro u v h
    simp only [writeWireBytes, transformLineEndings, if_pos rfl]
    exact crlfExpand_append_nl u v h
  · intro u h
    simp only [writeWireBytes, transformLineEndings, if_pos rfl]
    exact crlfExpand_no_nl u h

/-- Claim C2, witness for the amended theorem at a concrete input. -/
theorem c2_crlf_write_expands_every_newline_witness :
    ('\n' ∉ ("a".data : List Char)) ∧
    writeWireBytes ("CRLF".data) ("a\nb".data) = "a\r\nb".data := by
  refine ⟨by decide, ?_⟩
  have h := c2_crlf_write_expands_every_newline.1 ("a".data) ("b".data) (by decide)
  simpa using h

/-! ## Claim C7: baud-probe success heuristic -/

/-- Claim C7, counterexample: the attempt on the ten-byte response
`"a    b    "` is treated as successful by the code, yet its cleaned
text has only two non-whitespace characters — the code tests the
length of the trimmed text (interior whitespace included), not the
count of non-whitespace characters. -/
theorem c7_probe_success_counterexample :
    probeSingleBaudSuccess ("a    b    ".data) = true ∧
    ((cleanSerialData ("a    b    ".data)).filter (fun c => !isGoSpace c)).length = 2 ∧
    ¬ (5 < 2) := by
  refine ⟨by decide, by decide, by omega⟩

/-- Claim C7, amended: a single-baud attempt is treated as successful
exactly when at least 10 bytes came back and the whitespace-trimmed
cleaned text is longer than 5 characters (interior whitespace counts);
otherwise the prober moves to the next configured baud. -/
theorem c7_probe_success_characterization :
    (∀ raw : List Char,
      probeSingleBaudSuccess raw = true ↔
        (10 ≤ raw.length ∧ 5 < (trim (cleanSerialData raw)).length)) ∧
    (∀ (oracle : Nat → List Char) (b : Nat) (rest : List Nat),
      ProbePort oracle (b :: rest) =
        if 10 ≤ (oracle b).length ∧ 5 < (trim (cleanSerialData (oracle b))).length
        then some b else ProbePort oracle rest) := by
  constructor
  · intro raw
    simp [probeSingleBaudSuccess]
  · intro oracle b rest
    rw [ProbePort]
    by_cases h : 10 ≤ (oracle b).length ∧ 5 < (trim (cleanSerialData (oracle b))).length
    · rw [if_pos ?_, if_pos h]
      simp [probeSingleBaudSuccess, h.1, h.2]
    · rw [if_neg ?_, if_neg h]
      simp only [probeSingleBaudSuccess, Bool.and_eq_true, decide_eq_true_eq]
      exact fun hc => h hc

/-! ## Claim C8: BREAK emulation -/

/-- Claim C8, counterexample: a BREAK of 255 ms emits
`255 / 10 = 25` NUL bytes, not `ceil(255 / 10) = 26`: the code
truncates the division instead of rounding up. -/
theorem c8_break_nul_count_counterexample :
    (emulateBreak 9600 255 ⟨fun _ => true⟩).nuls = 25 ∧
    (255 + 10 - 1) / 10 = 26 ∧ 25 ≠ 26 := by
  refine ⟨by decide, by norm_num, by omega⟩

/-- Claim C8, amended: BREAK emulation switches the port to one tenth
of the configured baud, emits `max 1 (duration_ms / 10)` NUL bytes
(truncated division, minimum one), then restores the original mode; a
BREAK of 250 ms therefore emits 25 ≥ 25 NUL bytes at baud/10 before
the baud is restored, and a mode-switch failure is reported as an
error. -/
theorem c8_break_behaviour (baud ms : Nat) (port : PortModel) :
    (port.setModeOk (baud / 10) = true → port.setModeOk baud = true →
      emulateBreak baud ms port =
        { err := false, modeSets := [baud / 10, baud],
          nuls := max 1 (ms / 10), finalBaud := baud }) ∧
    (port.setModeOk (baud / 10) = false → (emulateBreak baud ms port).err = true) ∧
    (port.setModeOk (baud / 10) = true → port.setModeOk baud = false →
      emulateBreak baud ms port =
        { err := true, modeSets := [baud / 10],
          nuls := max 1 (ms / 10), finalBaud := baud / 10 }) := by
  refine ⟨fun h1 h2 => ?_, fun h1 => ?_, fun h1 h2 => ?_⟩
  · have hmax : (if ms / 10 = 0 then 1 else ms / 10) = max 1 (ms / 10) := by
      split_ifs with h <;> omega
    simp [emulateBreak, h1, h2, hmax]
  · simp [emulateBreak, h1]
  · have hmax : (if ms / 10 = 0 then 1 else ms / 10) = max 1 (ms / 10) := by
      split_ifs with h <;> omega
    simp [emulateBreak, h1, h2, hmax]

/-- Claim C8, witness: a 250 ms BREAK on a healthy 9600-baud port
emits 25 NUL bytes at 960 baud and restores 9600 baud. -/
theorem c8_break_behaviour_witness :
    emulateBreak 9600 250 ⟨fun _ => true⟩ =
      { err := false, modeSets := [960, 9600], nuls := 25, finalBaud := 9600 } := by
  have h := (c8_break_behaviour 9600 250 ⟨fun _ => true⟩).1 rfl rfl
  simpa using h

/-! ## Claim C4: safe-probe preconditions -/

/-- Claim C4: whenever a precondition of the safe-probe runner fails —
the candidate has no safe probe, its stage is not `Prompt`, its
probability is below 0.55, or the probe's guard regex rejects the
candidate's prompt — `MaybeProbe` returns the empty output and no
updated candidate, and performs no `Write` and no `ReadUntil` on the
session. -/
theorem c4_probe_preconditions_refuse (hasSess : Bool) (beh : SessionBeh) (cand : Candidate)
    (h : cand.NextSafeProbe.isNone = true
       ∨ cand.stage ≠ StagePrompt
       ∨ cand.Prob < 0.55
       ∨ (∃ p g, cand.NextSafeProbe = some p ∧ p.Guard = some g ∧ g cand.Prompt = false)) :
    MaybeProbe hasSess beh cand = (([], none, none), ⟨[], 0⟩) := by
  rcases h with h | h | h | ⟨p, g, hp, hg, hfail⟩
  · have hnone : cand.NextSafeProbe = none := Option.isNone_iff_eq_none.mp h
    simp [MaybeProbe, hnone]
  · cases hpr : cand.NextSafeProbe with
    | none => simp [MaybeProbe, hpr]
    | some p =>
      cases hasSess with
      | false => simp [MaybeProbe, hpr]
      | true => simp [MaybeProbe, hpr, h]
  · cases hpr : cand.NextSafeProbe with
    | none => simp [MaybeProbe, hpr]
    | some p =>
      cases hasSess with
      | false => simp [MaybeProbe, hpr]
      | true =>
        by_cases hst : cand.stage = StagePrompt
        · simp [MaybeProbe, hpr, hst, h]
        · simp [MaybeProbe, hpr, hst]
  · cases hasSess with
    | false => simp [MaybeProbe, hp]
    | true =>
      by_cases hst : cand.stage = StagePrompt
      · by_cases hpb : cand.Prob < 0.55
        · simp [MaybeProbe, hp, hst, hpb]
        · simp [MaybeProbe, hp, hst, hpb, hg, hfail]
      · simp [MaybeProbe, hp, hst]

/-- Claim C4, witness: a Cisco IOS candidate at stage `Login` with a
probe attached is refused without touching the session. -/
theorem c4_probe_preconditions_refuse_witness :
    MaybeProbe true ⟨true, [], true⟩
      { Vendor := "Cisco".data, OS := "IOS".data, Prob := 0.9, Evidence := [],
        NextSafeProbe := some (ciscoShowVersionProbe []),
        stage := StageLogin, Prompt := "R1#".data } =
      (([], none, none), ⟨[], 0⟩) := by
  apply c4_probe_preconditions_refuse
  exact Or.inr (Or.inl (by decide))

/-! ## Claim C10: whitespace-only terminators -/

theorem hasSuffixL_nil (s : List Char) : hasSuffixL s [] = true := by
  simp [hasSuffixL, List.drop_length]

/-- Claim C10: if the terminator list contains a non-empty terminator
that trims to nothing (such as `"\n"`, which `MaybeProbe` always
passes), then the terminator check succeeds on every accumulator, and
`ReadUntil` returns successfully as soon as the first non-empty chunk
arrives, whatever its content. -/
theorem c10_whitespace_terminator_returns_first_chunk
    (terms : List (List Char)) (t : List Char)
    (ht : t ∈ terms) (hne : t ≠ []) (htrim : trim t = []) :
    (∀ out, matchesTerminator out terms = true) ∧
    (∀ (acc d : List Char) (evs : List ReadEvent), d ≠ [] →
      ReadUntil terms (ReadEvent.chunk d :: evs) acc = (acc ++ d, none)) := by
  have hmatch : ∀ out, matchesTerminator out terms = true := by
    intro out
    unfold matchesTerminator
    rw [List.any_eq_true]
    refine ⟨t, ht, ?_⟩
    rw [if_neg (by simpa using hne), htrim]
    exact hasSuffixL_nil _
  refine ⟨hmatch, ?_⟩
  intro acc d evs hd
  rw [ReadUntil]
  rw [if_neg (by simpa using hd), if_neg (by simpa using List.ne_nil_of_mem ht),
    if_pos (hmatch (acc ++ d))]

/-- Claim C10, witness: with the probe terminators (which contain
`"\n"`), `ReadUntil` returns the very first chunk `"x"`. -/
theorem c10_whitespace_terminator_returns_first_chunk_witness :
    (("\n".data : List Char) ∈ probeTerminators ∧ ("\n".data : List Char) ≠ [] ∧
      trim ("\n".data) = []) ∧
    ReadUntil probeTerminators [ReadEvent.chunk ("x".data)] [] = ("x".data, none) := by
  refine ⟨⟨by decide, by decide, by decide⟩, ?_⟩
  have h := (c10_whitespace_terminator_returns_first_chunk probeTerminators ("\n".data)
    (by decide) (by decide) (by decide)).2 [] ("x".data) [] (by decide)
  simpa using h

/-! ## Claim C1: config-mode refusal is absent from the engine -/

/-- Claim C1 (code divergence): with the policy flag ignored — the
engine takes no such flag — a Cisco IOS candidate at stage `Prompt`
with probability 0.9 and prompt `R1(config)#` passes every check in
`MaybeProbe` (its guard admits the configuration-mode prompt), so the
engine writes `"show version\r\n"` to the session and performs a read,
even though the prompt fails the UI's configuration-mode test.  The
claimed refusal `(none, none)` with no bytes written does not
happen. -/
theorem c1_engine_writes_despite_config_mode
    (scr : List (List Char → Option (List Char))) :
    configModeCheck ("R1(config)#".data) = true ∧
    ciscoGuardMatch ("R1(config)#".data) = true ∧
    (MaybeProbe true ⟨true, [], true⟩
      { Vendor := "Cisco".data, OS := "IOS".data, Prob := 0.9,
        Evidence := ["prompt: Cisco IOS prompt".data],
        NextSafeProbe := some (ciscoShowVersionProbe scr),
        stage := StagePrompt, Prompt := "R1(config)#".data }).2 =
      ⟨["show version\r\n".data], 1⟩ := by
  refine ⟨by decide, by decide, ?_⟩
  have hguard : ciscoGuardMatch ("R1(config)#".data) = true := by decide
  have hprob : ¬ ((0.9 : ℚ) < 0.55) := by norm_num
  have hsuf : hasSuffixL ("show version".data) ("\n".data) = false := by decide
  simp [MaybeProbe, ciscoShowVersionProbe, hguard, hprob, hsuf]

/-! ## Claim C5: scorer characterization -/

theorem find?_isSome_eq_any {α : Type} (l : List α) (p : α → Bool) :
    (l.find? p).isSome = l.any p := by
  induction l with
  | nil => rfl
  | cons a rest ih =>
    by_cases h : p a <;> simp [List.find?, h, ih]

/-- Claim C5: per signature, the scorer starts at the base weight,
adds 0.5 for the first matching pre-login pattern, 0.2 for the first
matching login pattern and 0.35 for the first prompt pattern matching
the prompt line, clamps the result into [0, 1], and emits a candidate
exactly when at least one pattern fired; every emitted candidate
carries at least one evidence string. -/
theorem c5_scorer_characterization :
    (∀ (sig : Signature) (rx prompt : List Char),
      (scoreSignature sig rx prompt = none ↔
        (sig.PreLogin.any (fun p => p.MatchFn rx) = false ∧
         sig.Login.any (fun p => p.MatchFn rx) = false ∧
         sig.Prompt.any (fun p => p.MatchFn prompt) = false))) ∧
    (∀ (sig : Signature) (rx prompt : List Char) (c : Candidate),
      scoreSignature sig rx prompt = some c →
        c.Prob = clamp01 (sig.Weight +
            (if sig.PreLogin.any (fun p => p.MatchFn rx) then (0.5 : ℚ) else 0) +
            (if sig.Login.any (fun p => p.MatchFn rx) then (0.2 : ℚ) else 0) +
            (if sig.Prompt.any (fun p => p.MatchFn prompt) then (0.35 : ℚ) else 0)) ∧
        c.Evidence ≠ [] ∧ 0 ≤ c.Prob ∧ c.Prob ≤ 1) ∧
    (∀ (registry : List Signature) (rx prompt : List Char) (c : Candidate),
      c ∈ GetCandidates registry rx prompt →
        ∃ sig ∈ registry, scoreSignature sig rx prompt = some c) := by
  refine ⟨?_, ?_, ?_⟩
  · intro sig rx prompt
    simp only [scoreSignature, ← find?_isSome_eq_any]
    by_cases h1 : (sig.PreLogin.find? (fun p => p.MatchFn rx)).isSome <;>
      by_cases h2 : (sig.Login.find? (fun p => p.MatchFn rx)).isSome <;>
        by_cases h3 : (sig.Prompt.find? (fun p => p.MatchFn prompt)).isSome <;>
          simp [h1, h2, h3]
  · intro sig rx prompt c h
    simp only [scoreSignature, ← find?_isSome_eq_any] at h ⊢
    cases hpre : sig.PreLogin.find? (fun p => p.MatchFn rx) <;>
      cases hlo : sig.Login.find? (fun p => p.MatchFn rx) <;>
        cases hpr : sig.Prompt.find? (fun p => p.MatchFn prompt) <;>
          rw [hpre, hlo, hpr] at h <;> simp only [Option.isSome_some, Option.isSome_none] at h ⊢
    · simp at h
    all_goals
      simp only [if_true, if_false, Bool.false_or, Bool.true_or, Bool.or_true, Bool.or_false,
        Option.toList_some, Option.toList_none, Option.map_some, Option.map_none,
        List.nil_append, List.append_nil, List.cons_append] at h
    all_goals
      obtain rfl := Option.some_injective _ h.symm
    all_goals
      refine ⟨by norm_num, by simp, clamp01_nonneg _, clamp01_le_one _⟩
  · intro registry rx prompt c h
    simp only [GetCandidates, List.mem_filterMap] at h
    obtain ⟨sig, hmem, hsome⟩ := h
    exact ⟨sig, hmem, hsome⟩

/-- Claim C5, witness: a signature whose prompt pattern fires yields a
candidate with probability `clamp01 (0.05 + 0 + 0 + 0.35)` and one
evidence entry. -/
theorem c5_scorer_characterization_witness :
    ∃ c : Candidate,
      scoreSignature
        { Vendor := "Cisco".data, OS := "IOS".data, PreLogin := [], Login := [],
          Prompt := [⟨"Cisco IOS prompt".data, fun l => hasSuffixL l ("#".data)⟩],
          VersionScrape := [], safeProbe := none, Weight := 0.05 }
        ("banner".data) ("R1#".data) = some c ∧
      c.Prob = clamp01 ((0.05 : ℚ) + 0 + 0 + 0.35) ∧ c.Evidence ≠ [] ∧
      0 ≤ c.Prob ∧ c.Prob ≤ 1 := by
  refine ⟨_, rfl, ?_⟩
  have h := c5_scorer_characterization.2.1
    { Vendor := "Cisco".data, OS := "IOS".data, PreLogin := [], Login := [],
      Prompt := [⟨"Cisco IOS prompt".data, fun l => hasSuffixL l ("#".data)⟩],
      VersionScrape := [], safeProbe := none, Weight := 0.05 }
    ("banner".data) ("R1#".data) _ rfl
  have hs : hasSuffixL ("R1#".data) ("#".data) = true := by decide
  simpa [hs] using h

/-! ## Claim C6: Finalize invariants -/

/-- Claim C6: every finalized result has confidence in [0, 1] and a
duplicate-free evidence list of at most three entries. -/
theorem c6_finalize_confidence_evidence (registry : List Signature) (stage : List Char)
    (cands : List Candidate) (rx prompt probeOut : List Char) :
    0 ≤ (Finalize registry stage cands rx prompt probeOut).Confidence ∧
    (Finalize registry stage cands rx prompt probeOut).Confidence ≤ 1 ∧
    (Finalize registry stage cands rx prompt probeOut).Evidence.Nodup ∧
    (Finalize registry stage cands rx prompt probeOut).Evidence.length ≤ 3 := by
  cases cands with
  | nil =>
    have h : (Finalize registry stage [] rx prompt probeOut).Confidence = 0 := rfl
    refine ⟨h ▸ le_refl (0 : ℚ), h ▸ zero_le_one, ?_, ?_⟩ <;>
      simp [Finalize, shortlistEvidence_nodup, shortlistEvidence_length_le]
  | cons top rest =>
    simp only [Finalize]
    split_ifs <;>
      exact ⟨clamp01_nonneg _, clamp01_le_one _,
        shortlistEvidence_nodup _, shortlistEvidence_length_le _⟩

/-! ## Claim C3: Normalize idempotence -/

theorem replaceCrlf_cons_of_ne (c : Char) (rest : List Char)
    (h : ∀ r : List Char, c = '\r' → rest = '\n' :: r → False) :
    replaceCrlf (c :: rest) = c :: replaceCrlf rest := by
  rw [replaceCrlf.eq_def]
  split
  · rename_i heq
    exact absurd heq (by simp)
  · rename_i r heq
    injection heq with h1 h2
    exact (h r h1 h2).elim
  · rename_i c' rest' hx heq
    injection heq with h1 h2
    subst h1
    subst h2
    rfl

theorem mem_replaceCrlf (l : List Char) : ∀ c ∈ replaceCrlf l, c ∈ l ∨ c = '\n' := by
  induction l using replaceCrlf.induct with
  | case1 => simp [replaceCrlf]
  | case2 rest ih =>
    intro c hc
    rw [replaceCrlf] at hc
    rcases List.mem_cons.mp hc with rfl | h'
    · exact Or.inr rfl
    · rcases ih c h' with h'' | h''
      · exact Or.inl (by simp [h''])
      · exact Or.inr h''
  | case3 c0 rest hx ih =>
    intro c hc
    rw [replaceCrlf_cons_of_ne c0 rest hx] at hc
    rcases List.mem_cons.mp hc with rfl | h'
    · exact Or.inl (List.mem_cons_self _ _)
    · rcases ih c h' with h'' | h''
      · exact Or.inl (List.mem_cons_of_mem _ h'')
      · exact Or.inr h''

theorem replaceCrlf_no_cr_id (l : List Char) (h : '\r' ∉ l) : replaceCrlf l = l := by
  induction l using replaceCrlf.induct with
  | case1 => rw [replaceCrlf]
  | case2 rest ih => exact absurd (List.mem_cons_self _ _) h
  | case3 c0 rest hx ih =>
    rw [replaceCrlf_cons_of_ne c0 rest hx,
      ih (fun hm => h (List.mem_cons_of_mem _ hm))]

theorem ansiStrip_no_esc (l : List Char) (h : '\x1b' ∉ l) : ansiStrip l = l := by
  induction l with
  | nil => rw [ansiStrip]
  | cons c rest ih =>
    have hc : c ≠ '\x1b' := fun he => h (he ▸ List.mem_cons_self _ _)
    rw [ansiStrip, if_neg hc, ih (fun hm => h (List.mem_cons_of_mem _ hm))]

/-- Claim C3, counterexample: `Normalize` is not idempotent — on the
input `ESC [ ESC [ A A` the first pass removes the inner CSI sequence
and thereby assembles a new one (`ESC [ A`), which a second pass
removes. -/
theorem c3_normalize_not_idempotent_counterexample :
    Normalize (Normalize ("\x1b[\x1b[AA".data)) ≠ Normalize ("\x1b[\x1b[AA".data) := by
  have h1 : Normalize ("\x1b[\x1b[AA".data) = "\x1b[A".data := by
    simp [Normalize, ansiStrip, tryCsi, csiParamRun, isCsiParam, replaceCrlf]
  have h2 : Normalize ("\x1b[A".data) = [] := by
    simp [Normalize, ansiStrip, tryCsi, csiParamRun, isCsiParam, replaceCrlf]
  rw [h1, h2]
  decide

/-- Claim C3, amended: `Normalize` is idempotent on every input that
contains no ESC character (the ANSI-stripping pass is then the
identity; removing a CSI sequence can otherwise create a new one). -/
theorem c3_normalize_idempotent_without_esc (x : List Char) (h : '\x1b' ∉ x) :
    Normalize (Normalize x) = Normalize x := by
  by_cases hx : x = []
  · subst hx; rfl
  · have hstrip : ansiStrip x = x := ansiStrip_no_esc x h
    have hN : Normalize x =
        ((replaceCrlf x).map (fun c => if c = '\r' then '\n' else c)).filter
          (fun c => c ≠ '\x00') := by
      rw [Normalize, if_neg hx, hstrip]
    have hsubM : ∀ c ∈ Normalize x,
        c ∈ (replaceCrlf x).map (fun c => if c = '\r' then '\n' else c) := by
      intro c hc
      rw [hN] at hc
      exact List.mem_of_mem_filter hc
    have hnoesc : '\x1b' ∉ Normalize x := by
      intro hmem
      rcases List.mem_map.mp (hsubM _ hmem) with ⟨a, ha, hfa⟩
      by_cases har : a = '\r'
      · rw [if_pos har] at hfa
        exact absurd hfa (by decide)
      · rw [if_neg har] at hfa
        subst hfa
        rcases mem_replaceCrlf x _ ha with h' | h'
        · exact h h'
        · exact absurd h' (by decide)
    have hnocr : '\r' ∉ Normalize x := by
      intro hmem
      rcases List.mem_map.mp (hsubM _ hmem) with ⟨a, ha, hfa⟩
      by_cases har : a = '\r'
      · rw [if_pos har] at hfa
        exact absurd hfa (by decide)
      · rw [if_neg har] at hfa
        exact har hfa
    have hnonul : ∀ c ∈ Normalize x, (fun c => decide (c ≠ '\x00')) c = true := by
      intro c hc
      rw [hN] at hc
      exact (List.mem_filter.mp hc).2
    by_cases hM : Normalize x = []
    · rw [hM]
      rfl
    · rw [Normalize, if_neg hM, ansiStrip_no_esc _ hnoesc,
        replaceCrlf_no_cr_id _ hnocr]
      have hmap : (Normalize x).map (fun c => if c = '\r' then '\n' else c) = Normalize x := by
        have : ∀ c ∈ Normalize x, (fun c => if c = '\r' then '\n' else c) c = id c := by
          intro c hc
          have hcr : c ≠ '\r' := fun hEq => hnocr (hEq ▸ hc)
          simp [hcr]
        rw [List.map_congr_left this, List.map_id]
      rw [hmap]
      exact List.filter_eq_self.mpr hnonul

/-- Claim C3, witness for the amended theorem: an ESC-free input with
CR/LF content. -/
theorem c3_normalize_idempotent_without_esc_witness :
    ('\x1b' ∉ ("a\r\nb".data : List Char)) ∧
    Normalize (Normalize ("a\r\nb".data)) = Normalize ("a\r\nb".data) :=
  ⟨by decide, c3_normalize_idempotent_without_esc _ (by decide)⟩

/-! ## Claim C9: redaction idempotence

The development below proves that `scrubSensitive` is idempotent.  The
structure of the argument: a replacement pass leaves no match of its
own pattern behind (the marker text contains no match and restores no
boundary), and the MAC pass cannot create an IPv4 match, so a second
`scrubSensitive` pass is the identity. -/

theorem runLength_le (p : Char → Bool) (l : List Char) : runLength p l ≤ l.length := by
  induction l with
  | nil => simp [runLength]
  | cons c rest ih =>
    rw [runLength]
    split_ifs <;> simp
    omega


theorem runLength_true (p : Char → Bool) (l : List Char) :
    ∀ i < runLength p l, (l[i]?.any p) = true := by
  induction l with
  | nil => simp [runLength]
  | cons c rest ih =>
    intro i hi
    rw [runLength] at hi
    split_ifs at hi with h
    · cases i with
      | zero => simpa using h
      | succ j =>
        simp only [List.getElem?_cons_succ]
        exact ih j (by omega)
    · omega

theorem runLength_stop (p : Char → Bool) (l : List Char) :
    (l[runLength p l]?.any p) = false := by
  induction l with
  | nil => simp [runLength]
  | cons c rest ih =>
    rw [runLength]
    split_ifs with h
    · simpa using ih
    · simpa using h

theorem runLength_congr (p : Char → Bool) (l : List Char) :
    ∀ (l' : List Char) (k : Nat), (∀ i ≤ k, l[i]? = l'[i]?) → runLength p l ≤ k →
      runLength p l' = runLength p l := by
  induction l with
  | nil =>
    intro l' k hagree _
    have h0 : l'[0]? = none := by rw [← hagree 0 (Nat.zero_le _)]; simp
    cases l' with
    | nil => rfl
    | cons c r => simp at h0
  | cons c rest ih =>
    intro l' k hagree hk
    have h0 : l'[0]? = some c := by rw [← hagree 0 (Nat.zero_le _)]; simp
    cases l' with
    | nil => simp at h0
    | cons c' rest' =>
      have hc : c' = c := by simpa using h0
      subst hc
      rw [runLength] at hk ⊢
      rw [runLength]
      split_ifs with h
      · have hk' : runLength p rest ≤ k - 1 := by
          rw [if_pos h] at hk; omega
        have hagree' : ∀ i ≤ k - 1, rest[i]? = rest'[i]? := by
          intro i hi
          have hk1 : 1 ≤ k := by rw [if_pos h] at hk; omega
          have := hagree (i + 1) (by omega)
          simpa using this
        rw [ih rest' (k - 1) hagree' hk']
      · rfl

theorem octDot_eq_some (l : List Char) (n : Nat) (h : octDot l = some n) :
    1 ≤ runLength Char.isDigit l ∧ runLength Char.isDigit l ≤ 3 ∧
    l[runLength Char.isDigit l]? = some '.' ∧ n = runLength Char.isDigit l + 1 := by
  unfold octDot at h
  dsimp only at h
  split_ifs at h with hc
  exact ⟨hc.1, hc.2.1, hc.2.2, (Option.some_injective _ h).symm⟩

theorem octEnd_eq_some (l : List Char) (n : Nat) (h : octEnd l = some n) :
    1 ≤ runLength Char.isDigit l ∧ runLength Char.isDigit l ≤ 3 ∧
    endBoundary l[runLength Char.isDigit l]? = true ∧ n = runLength Char.isDigit l := by
  unfold octEnd at h
  dsimp only at h
  split_ifs at h with hc
  exact ⟨hc.1, hc.2.1, hc.2.2, (Option.some_injective _ h).symm⟩

theorem octDot_le (l : List Char) (n : Nat) (h : octDot l = some n) :
    2 ≤ n ∧ n ≤ l.length := by
  obtain ⟨h1, _, hdot, rfl⟩ := octDot_eq_some l n h
  have : runLength Char.isDigit l < l.length := by
    by_contra hlt
    rw [List.getElem?_eq_none (by omega)] at hdot
    exact absurd hdot (by simp)
  omega

theorem octEnd_le (l : List Char) (n : Nat) (h : octEnd l = some n) :
    1 ≤ n ∧ n ≤ l.length := by
  obtain ⟨h1, _, _, rfl⟩ := octEnd_eq_some l n h
  exact ⟨h1, runLength_le _ _⟩

theorem octDot_congr (l l' : List Char) (m k : Nat) (h : octDot l = some m)
    (hmk : m ≤ k) (hagree : ∀ i ≤ k, l[i]? = l'[i]?) : octDot l' = some m := by
  obtain ⟨h1, h3, hdot, rfl⟩ := octDot_eq_some l m h
  have hrun : runLength Char.isDigit l' = runLength Char.isDigit l :=
    runLength_congr _ l l' k hagree (by omega)
  unfold octDot
  rw [hrun, if_pos ⟨h1, h3, by rw [← hagree _ (by omega)]; exact hdot⟩]

theorem octEnd_congr (l l' : List Char) (m k : Nat) (h : octEnd l = some m)
    (hmk : m ≤ k) (hagree : ∀ i ≤ k, l[i]? = l'[i]?) : octEnd l' = some m := by
  obtain ⟨h1, h3, hend, rfl⟩ := octEnd_eq_some l m h
  have hrun : runLength Char.isDigit l' = runLength Char.isDigit l :=
    runLength_congr _ l l' k hagree (by omega)
  unfold octEnd
  rw [hrun, if_pos ⟨h1, h3, by rw [← hagree _ (by omega)]; exact hend⟩]

theorem ipLen_inv (l : List Char) (n : Nat) (h : ipLen l = some n) :
    ∃ n1 n2 n3 n4, octDot l = some n1 ∧ octDot (l.drop n1) = some n2 ∧
      octDot (l.drop (n1 + n2)) = some n3 ∧ octEnd (l.drop (n1 + n2 + n3)) = some n4 ∧
      n = n1 + n2 + n3 + n4 := by
  unfold ipLen at h
  split at h
  · exact absurd h (by simp)
  · rename_i n1 h1
    split at h
    · exact absurd h (by simp)
    · rename_i n2 h2
      split at h
      · exact absurd h (by simp)
      · rename_i n3 h3
        split at h
        · exact absurd h (by simp)
        · rename_i n4 h4
          exact ⟨n1, n2, n3, n4, h1, h2, h3, h4, (Option.some_injective _ h).symm⟩

theorem optAny_mono {p q : Char → Bool} (o : Option Char) (h : o.any p = true)
    (hpq : ∀ c, p c = true → q c = true) : o.any q = true := by
  cases o with
  | none => simp at h
  | some c => simpa using hpq c (by simpa using h)

theorem isWordC_of_digit (c : Char) (h : c.isDigit = true) : isWordC c = true := by
  simp [isWordC, Char.isAlphanum, h]

theorem isWordC_of_hex (c : Char) (h : isHexC c = true) : isWordC c = true := by
  rw [isHexC] at h
  rcases Bool.or_eq_true _ _ |>.mp h with h' | h'
  · rcases Bool.or_eq_true _ _ |>.mp h' with h'' | h''
    · exact isWordC_of_digit c h''
    · have hA : ('A' : Char) ≤ c := by simpa using (Bool.and_eq_true _ _ |>.mp h'').1
      have hF : c ≤ ('F' : Char) := by simpa using (Bool.and_eq_true _ _ |>.mp h'').2
      have : c.isUpper = true := by
        simp only [Char.isUpper, decide_eq_true_eq, Bool.and_eq_true]
        exact ⟨by simpa using hA, by simpa using le_trans hF (show ('F' : Char) ≤ 'Z' by decide)⟩
      simp [isWordC, Char.isAlphanum, Char.isAlpha, this]
  · have ha : ('a' : Char) ≤ c := by simpa using (Bool.and_eq_true _ _ |>.mp h').1
    have hf : c ≤ ('f' : Char) := by simpa using (Bool.and_eq_true _ _ |>.mp h').2
    have : c.isLower = true := by
      simp only [Char.isLower, decide_eq_true_eq, Bool.and_eq_true]
      exact ⟨by simpa using ha, by simpa using le_trans hf (show ('f' : Char) ≤ 'z' by decide)⟩
    simp [isWordC, Char.isAlphanum, Char.isAlpha, this]

theorem octDot_chars (l : List Char) (m : Nat) (h : octDot l = some m) :
    ∀ i < m, (l[i]?.any (fun c => c.isDigit || c = '.')) = true := by
  obtain ⟨h1, h3, hdot, rfl⟩ := octDot_eq_some l m h
  intro i hi
  by_cases hcase : i < runLength Char.isDigit l
  · exact optAny_mono _ (runLength_true _ _ i hcase) (fun c hc => by simp [hc])
  · have : i = runLength Char.isDigit l := by omega
    subst this
    rw [hdot]
    simp

theorem octEnd_chars (l : List Char) (m : Nat) (h : octEnd l = some m) :
    ∀ i < m, (l[i]?.any (fun c => c.isDigit || c = '.')) = true := by
  obtain ⟨h1, h3, hend, rfl⟩ := octEnd_eq_some l m h
  intro i hi
  exact optAny_mono _ (runLength_true _ _ i hi) (fun c hc => by simp [hc])

theorem ipLen_ge2 (l : List Char) (n : Nat) (h : ipLen l = some n) : 2 ≤ n := by
  obtain ⟨n1, n2, n3, n4, h1, h2, h3, h4, rfl⟩ := ipLen_inv l n h
  have := octDot_le _ _ h1
  have := octEnd_le _ _ h4
  omega

theorem ipLen_le_len (l : List Char) (n : Nat) (h : ipLen l = some n) : n ≤ l.length := by
  obtain ⟨n1, n2, n3, n4, h1, h2, h3, h4, rfl⟩ := ipLen_inv l n h
  have e1 := octDot_le _ _ h1
  have e2 := octDot_le _ _ h2
  have e3 := octDot_le _ _ h3
  have e4 := octEnd_le _ _ h4
  simp only [List.length_drop] at e2 e3 e4
  omega

theorem ipLen_chars (l : List Char) (n : Nat) (h : ipLen l = some n) :
    ∀ i < n, (l[i]?.any (fun c => c.isDigit || c = '.')) = true := by
  obtain ⟨n1, n2, n3, n4, h1, h2, h3, h4, rfl⟩ := ipLen_inv l n h
  intro i hi
  by_cases c1 : i < n1
  · exact octDot_chars _ _ h1 i c1
  · by_cases c2 : i < n1 + n2
    · have := octDot_chars _ _ h2 (i - n1) (by omega)
      rw [List.getElem?_drop] at this
      rwa [show n1 + (i - n1) = i by omega] at this
    · by_cases c3 : i < n1 + n2 + n3
      · have := octDot_chars _ _ h3 (i - (n1 + n2)) (by omega)
        rw [List.getElem?_drop] at this
        rwa [show n1 + n2 + (i - (n1 + n2)) = i by omega] at this
      · have := octEnd_chars _ _ h4 (i - (n1 + n2 + n3)) (by omega)
        rw [List.getElem?_drop] at this
        rwa [show n1 + n2 + n3 + (i - (n1 + n2 + n3)) = i by omega] at this

theorem ipLen_noBracket (l : List Char) (n i : Nat) (h : ipLen l = some n) (hi : i < n) :
    l[i]? ≠ some '\x5b' := by
  intro hcon
  have := ipLen_chars l n h i hi
  rw [hcon] at this
  simp at this

theorem ipLen_startWord (l : List Char) (n : Nat) (h : ipLen l = some n) :
    (l[0]?.any isWordC) = true := by
  obtain ⟨n1, n2, n3, n4, h1, h2, h3, h4, rfl⟩ := ipLen_inv l n h
  obtain ⟨ha1, _, _, rfl⟩ := octDot_eq_some _ _ h1
  exact optAny_mono _ (runLength_true _ _ 0 (by omega)) isWordC_of_digit

theorem ipLen_lastWord (l : List Char) (n : Nat) (h : ipLen l = some n) :
    (l[n - 1]?.any isWordC) = true := by
  obtain ⟨n1, n2, n3, n4, h1, h2, h3, h4, rfl⟩ := ipLen_inv l n h
  obtain ⟨ha1, _, _, rfl⟩ := octEnd_eq_some _ _ h4
  have := runLength_true Char.isDigit (l.drop (n1 + n2 + n3))
    (runLength Char.isDigit (l.drop (n1 + n2 + n3)) - 1) (by omega)
  rw [List.getElem?_drop] at this
  have heq : n1 + n2 + n3 + (runLength Char.isDigit (l.drop (n1 + n2 + n3)) - 1) =
      n1 + n2 + n3 + runLength Char.isDigit (l.drop (n1 + n2 + n3)) - 1 := by omega
  rw [heq] at this
  exact optAny_mono _ this isWordC_of_digit

theorem ipLen_endB (l : List Char) (n : Nat) (h : ipLen l = some n) :
    endBoundary l[n]? = true := by
  obtain ⟨n1, n2, n3, n4, h1, h2, h3, h4, rfl⟩ := ipLen_inv l n h
  obtain ⟨ha1, _, hend, rfl⟩ := octEnd_eq_some _ _ h4
  rw [List.getElem?_drop] at hend
  exact hend

theorem ipLen_congr (l l' : List Char) (n : Nat) (h : ipLen l = some n)
    (hagree : ∀ i, i ≤ n → l[i]? = l'[i]?) : ipLen l' = some n := by
  obtain ⟨n1, n2, n3, n4, h1, h2, h3, h4, rfl⟩ := ipLen_inv l n h
  have e1 := octDot_le _ _ h1
  have e2 := octDot_le _ _ h2
  have e3 := octDot_le _ _ h3
  have e4 := octEnd_le _ _ h4
  have g1 : octDot l' = some n1 :=
    octDot_congr l l' n1 (n1 + n2 + n3 + n4) h1 (by omega) hagree
  have hagree2 : ∀ i ≤ n2 + n3 + n4, (l.drop n1)[i]? = (l'.drop n1)[i]? := by
    intro i hi
    rw [List.getElem?_drop, List.getElem?_drop]
    exact hagree _ (by omega)
  have g2 : octDot (l'.drop n1) = some n2 :=
    octDot_congr _ _ n2 (n2 + n3 + n4) h2 (by omega) hagree2
  have hagree3 : ∀ i ≤ n3 + n4, (l.drop (n1 + n2))[i]? = (l'.drop (n1 + n2))[i]? := by
    intro i hi
    rw [List.getElem?_drop, List.getElem?_drop]
    exact hagree _ (by omega)
  have g3 : octDot (l'.drop (n1 + n2)) = some n3 :=
    octDot_congr _ _ n3 (n3 + n4) h3 (by omega) hagree3
  have hagree4 : ∀ i ≤ n4, (l.drop (n1 + n2 + n3))[i]? = (l'.drop (n1 + n2 + n3))[i]? := by
    intro i hi
    rw [List.getElem?_drop, List.getElem?_drop]
    exact hagree _ (by omega)
  have g4 : octEnd (l'.drop (n1 + n2 + n3)) = some n4 :=
    octEnd_congr _ _ n4 n4 h4 (by omega) hagree4
  unfold ipLen
  rw [g1]
  dsimp only
  rw [g2]
  dsimp only
  rw [g3]
  dsimp only
  rw [g4]

theorem ipLen_ok : LenOK ipLen :=
  ⟨ipLen_ge2, ipLen_le_len, ipLen_startWord, ipLen_noBracket, ipLen_lastWord,
    ipLen_endB, ipLen_congr⟩

theorem hexPairColon_parts (x : List Char) (h : hexPairColon x = true) :
    (x[0]?.any isHexC) = true ∧ (x[1]?.any isHexC) = true ∧ x[2]? = some ':' := by
  simp only [hexPairColon, Bool.and_eq_true, decide_eq_true_eq] at h
  exact ⟨h.1.1, h.1.2, h.2⟩

theorem hexPairEnd_parts (x : List Char) (h : hexPairEnd x = true) :
    (x[0]?.any isHexC) = true ∧ (x[1]?.any isHexC) = true ∧ endBoundary x[2]? = true := by
  simp only [hexPairEnd, Bool.and_eq_true] at h
  exact ⟨h.1.1, h.1.2, h.2⟩

theorem macLen_inv (l : List Char) (n : Nat) (h : macLen l = some n) :
    n = 17 ∧ hexPairColon l = true ∧ hexPairColon (l.drop 3) = true ∧
    hexPairColon (l.drop 6) = true ∧ hexPairColon (l.drop 9) = true ∧
    hexPairColon (l.drop 12) = true ∧ hexPairEnd (l.drop 15) = true := by
  unfold macLen at h
  split_ifs at h with hc
  simp only [Bool.and_eq_true] at hc
  exact ⟨(Option.some_injective _ h).symm, hc.1.1.1.1.1, hc.1.1.1.1.2, hc.1.1.1.2,
    hc.1.1.2, hc.1.2, hc.2⟩

theorem getElem?_drop_add (l : List Char) (a b : Nat) : (l.drop a)[b]? = l[a + b]? :=
  List.getElem?_drop l a b

theorem macLen_ge2 (l : List Char) (n : Nat) (h : macLen l = some n) : 2 ≤ n := by
  obtain ⟨rfl, -⟩ := macLen_inv l n h
  omega

theorem macLen_le_len (l : List Char) (n : Nat) (h : macLen l = some n) : n ≤ l.length := by
  obtain ⟨rfl, -, -, -, -, -, pe⟩ := macLen_inv l n h
  obtain ⟨-, h1, -⟩ := hexPairEnd_parts _ pe
  rw [getElem?_drop_add] at h1
  cases hv : l[15 + 1]? with
  | none => rw [hv] at h1; simp at h1
  | some c =>
    obtain ⟨hlt, -⟩ := List.getElem?_eq_some.mp hv
    omega

theorem macLen_startWord (l : List Char) (n : Nat) (h : macLen l = some n) :
    (l[0]?.any isWordC) = true := by
  obtain ⟨rfl, p0, -⟩ := macLen_inv l n h
  exact optAny_mono _ (hexPairColon_parts _ p0).1 isWordC_of_hex

theorem macLen_chars (l : List Char) (n : Nat) (h : macLen l = some n) :
    ∀ i < n, (l[i]?.any (fun c => isHexC c || c = ':')) = true := by
  obtain ⟨rfl, p0, p3, p6, p9, p12, pe⟩ := macLen_inv l n h
  obtain ⟨a0, b0, c0⟩ := hexPairColon_parts _ p0
  obtain ⟨a3, b3, c3⟩ := hexPairColon_parts _ p3
  obtain ⟨a6, b6, c6⟩ := hexPairColon_parts _ p6
  obtain ⟨a9, b9, c9⟩ := hexPairColon_parts _ p9
  obtain ⟨a12, b12, c12⟩ := hexPairColon_parts _ p12
  obtain ⟨a15, b15, -⟩ := hexPairEnd_parts _ pe
  rw [getElem?_drop_add] at a3 b3 c3 a6 b6 c6 a9 b9 c9 a12 b12 c12 a15 b15
  norm_num at a3 b3 c3 a6 b6 c6 a9 b9 c9 a12 b12 c12 a15 b15
  have hmono : ∀ (o : Option Char), o.any isHexC = true →
      (o.any (fun c => isHexC c || c = ':')) = true :=
    fun o ho => optAny_mono o ho (fun c hc => by simp [hc])
  intro i hi
  interval_cases i
  · exact hmono _ a0
  · exact hmono _ b0
  · rw [c0]; simp
  · exact hmono _ a3
  · exact hmono _ b3
  · rw [c3]; simp
  · exact hmono _ a6
  · exact hmono _ b6
  · rw [c6]; simp
  · exact hmono _ a9
  · exact hmono _ b9
  · rw [c9]; simp
  · exact hmono _ a12
  · exact hmono _ b12
  · rw [c12]; simp
  · exact hmono _ a15
  · exact hmono _ b15

theorem macLen_noBracket (l : List Char) (n i : Nat) (h : macLen l = some n) (hi : i < n) :
    l[i]? ≠ some '\x5b' := by
  intro hcon
  have := macLen_chars l n h i hi
  rw [hcon] at this
  simp [isHexC] at this

theorem macLen_lastWord (l : List Char) (n : Nat) (h : macLen l = some n) :
    (l[n - 1]?.any isWordC) = true := by
  obtain ⟨rfl, -, -, -, -, -, pe⟩ := macLen_inv l n h
  obtain ⟨-, b15, -⟩ := hexPairEnd_parts _ pe
  rw [getElem?_drop_add] at b15
  norm_num at b15
  exact optAny_mono _ b15 isWordC_of_hex

theorem macLen_endB (l : List Char) (n : Nat) (h : macLen l = some n) :
    endBoundary l[n]? = true := by
  obtain ⟨rfl, -, -, -, -, -, pe⟩ := macLen_inv l n h
  obtain ⟨-, -, e15⟩ := hexPairEnd_parts _ pe
  rw [getElem?_drop_add] at e15
  norm_num at e15
  exact e15

theorem macLen_congr (l l' : List Char) (n : Nat) (h : macLen l = some n)
    (hagree : ∀ i, i ≤ n → l[i]? = l'[i]?) : macLen l' = some n := by
  obtain ⟨rfl, p0, p3, p6, p9, p12, pe⟩ := macLen_inv l (n := n) h
  have hpc : ∀ d : Nat, d + 2 ≤ 17 → hexPairColon (l.drop d) = true →
      hexPairColon (l'.drop d) = true := by
    intro d hd hp
    obtain ⟨ha, hb, hc⟩ := hexPairColon_parts _ hp
    rw [getElem?_drop_add] at ha hb hc
    simp only [hexPairColon, getElem?_drop_add, Bool.and_eq_true, decide_eq_true_eq]
    rw [← hagree _ (by omega), ← hagree _ (by omega), ← hagree _ (by omega)]
    exact ⟨⟨ha, hb⟩, hc⟩
  have hpe : hexPairEnd (l'.drop 15) = true := by
    obtain ⟨ha, hb, hc⟩ := hexPairEnd_parts _ pe
    rw [getElem?_drop_add] at ha hb hc
    simp only [hexPairEnd, getElem?_drop_add, Bool.and_eq_true]
    rw [← hagree _ (by omega), ← hagree _ (by omega), ← hagree _ (by omega)]
    exact ⟨⟨ha, hb⟩, hc⟩
  unfold macLen
  rw [if_pos]
  simp only [Bool.and_eq_true]
  exact ⟨⟨⟨⟨⟨hpc 0 (by omega) p0, hpc 3 (by omega) p3⟩, hpc 6 (by omega) p6⟩,
    hpc 9 (by omega) p9⟩, hpc 12 (by omega) p12⟩, hpe⟩

theorem macLen_ok : LenOK macLen :=
  ⟨macLen_ge2, macLen_le_len, macLen_startWord, macLen_noBracket, macLen_lastWord,
    macLen_endB, macLen_congr⟩

theorem repAll_first (len : List Char → Option Nat) (rep : List Char) (pw : Bool) (l : List Char) :
    repAll len rep pw l = l ∨
    ∃ pre suf junk, l = pre ++ suf ∧ repAll len rep pw l = pre ++ rep ++ junk ∧
      (pre = [] → pw = false) ∧ (∀ x, pre.getLast? = some x → isWordC x = false) := by
  induction pw, l using repAll.induct len rep with
  | case1 pw => left; rw [repAll]
  | case2 pw c rest h ih =>
    right
    refine ⟨[], c :: rest,
      repAll len rep true ((c :: rest).drop (max 1 ((len (c :: rest)).getD 1))),
      rfl, ?_, fun _ => h.1, by simp⟩
    rw [repAll, if_pos h]
    simp
  | case3 pw c rest h ih =>
    rw [repAll, if_neg h]
    rcases ih with ih | ⟨pre, suf, junk, hsplit, hout, hpre0, hlast⟩
    · left; rw [ih]
    · right
      refine ⟨c :: pre, suf, junk, by rw [List.cons_append, ← hsplit],
        by rw [List.cons_append, List.cons_append, hout], by simp, ?_⟩
      intro x hx
      cases pre with
      | nil =>
        have hxc : x = c := by simpa using hx.symm
        subst hxc
        exact hpre0 rfl
      | cons p ps =>
        rw [List.getLast?_cons_cons] at hx
        exact hlast x hx

theorem len_transfer_none (lenQ : List Char → Option Nat) (HQ : LenOK lenQ)
    (lenP : List Char → Option Nat) (rep : List Char) (hrep0 : rep[0]? = some '[')
    (c : Char) (rest : List Char) (hnone : lenQ (c :: rest) = none) :
    lenQ (c :: repAll lenP rep (isWordC c) rest) = none := by
  cases hL : lenQ (c :: repAll lenP rep (isWordC c) rest) with
  | none => rfl
  | some L =>
    exfalso
    rcases repAll_first lenP rep (isWordC c) rest with heq | ⟨pre, suf, junk, hsplit, hout, hpre0, hlast⟩
    · rw [heq] at hL
      rw [hnone] at hL
      cases hL
    · have hLge2 := HQ.ge2 _ _ hL
      by_cases hcase : L ≤ pre.length
      · have hagree : ∀ i, i ≤ L → (c :: repAll lenP rep (isWordC c) rest)[i]? = (c :: rest)[i]? := by
          intro i hi
          cases i with
          | zero => simp
          | succ j =>
            simp only [List.getElem?_cons_succ]
            rw [hout, hsplit]
            have hj : j < pre.length := by omega
            rw [List.append_assoc, List.getElem?_append_left hj, List.getElem?_append_left hj]
        have hq := HQ.congr _ _ _ hL hagree
        rw [hnone] at hq
        cases hq
      · by_cases hcase2 : L = pre.length + 1
        · cases pre with
          | nil => simp at hcase2; omega
          | cons p ps =>
            have hw := HQ.lastWord _ _ hL
            rw [hcase2, Nat.add_sub_cancel] at hw
            have hidx : ((p :: ps).length : Nat) = ps.length + 1 := by simp
            rw [hidx, List.getElem?_cons_succ, hout, List.append_assoc,
              List.getElem?_append_left (by simp)] at hw
            have hgl : (p :: ps).getLast? = (p :: ps)[ps.length]? := by
              rw [List.getLast?_eq_getElem?]
              simp
            cases hv : (p :: ps)[ps.length]? with
            | none => rw [hv] at hw; simp at hw
            | some x =>
              rw [hv] at hw
              have hxl := hlast x (by rw [hgl, hv])
              simp only [Option.any_some] at hw
              rw [hxl] at hw
              cases hw
        · have hbr := HQ.noBracket _ _ (pre.length + 1) hL (by omega)
          apply hbr
          rw [List.getElem?_cons_succ, hout, List.append_assoc,
            List.getElem?_append_right (le_refl _), Nat.sub_self]
          have h0 : 0 < rep.length := by
            obtain ⟨h0', -⟩ := List.getElem?_eq_some.mp hrep0
            omega
          rw [List.getElem?_append_left h0, hrep0]

theorem repAll_id_of_noScan (len : List Char → Option Nat) (rep : List Char) :
    ∀ (pw : Bool) (l : List Char), noScan len pw l = true → repAll len rep pw l = l := by
  intro pw l
  induction pw, l using repAll.induct len rep with
  | case1 pw => intro _; rw [repAll]
  | case2 pw c rest h ih =>
    intro hscan
    exfalso
    rw [noScan] at hscan
    simp only [Bool.and_eq_true, Bool.or_eq_true] at hscan
    rcases hscan.1 with hpw | hnone
    · rw [h.1] at hpw; cases hpw
    · cases hx : len (c :: rest) with
      | none => rw [hx] at h; simp at h
      | some m => rw [hx] at hnone; simp at hnone
  | case3 pw c rest h ih =>
    intro hscan
    rw [repAll, if_neg h]
    rw [noScan] at hscan
    simp only [Bool.and_eq_true] at hscan
    rw [ih hscan.2]

theorem noScan_append_true (len : List Char → Option Nat) :
    ∀ (a : List Char) (pw : Bool) (b : List Char),
      noScan len pw (a ++ b) = true → noScan len (a.getLast?.elim pw isWordC) b = true := by
  intro a
  induction a with
  | nil => intro pw b h; simpa using h
  | cons c a' ih =>
    intro pw b h
    rw [List.cons_append, noScan] at h
    simp only [Bool.and_eq_true] at h
    have := ih (isWordC c) b h.2
    cases a' with
    | nil => simpa using this
    | cons d a'' => simpa [List.getLast?_cons_cons] using this

theorem noScan_true_of_any (len : List Char → Option Nat) (pw : Bool) (l : List Char)
    (h : noScan len pw l = true) : noScan len true l = true := by
  cases l with
  | nil => rw [noScan]
  | cons c rest =>
    rw [noScan] at h ⊢
    simp only [Bool.and_eq_true] at h ⊢
    exact ⟨by simp, h.2⟩

theorem noScan_false_of_head_nonword (len : List Char → Option Nat) (H : LenOK len)
    (l : List Char) (hhead : ∀ c rest, l = c :: rest → isWordC c = false)
    (h : noScan len true l = true) : noScan len false l = true := by
  cases l with
  | nil => rw [noScan]
  | cons c rest =>
    rw [noScan] at h ⊢
    simp only [Bool.and_eq_true] at h ⊢
    refine ⟨?_, h.2⟩
    simp only [Bool.or_eq_true]
    right
    cases hx : len (c :: rest) with
    | none => simp
    | some m =>
      have hsw := H.startWord _ _ hx
      simp only [List.getElem?_cons_zero, Option.any_some] at hsw
      rw [hhead c rest rfl] at hsw
      cases hsw

theorem repAll_head_nonword (lenP : List Char → Option Nat) (rep : List Char)
    (HP : LenOK lenP) (l0 : List Char) (n : Nat) (hn : lenP l0 = some n) :
    ∀ c' rest', repAll lenP rep true (l0.drop n) = c' :: rest' → isWordC c' = false := by
  intro c' rest' hX
  cases hd : l0.drop n with
  | nil =>
    rw [hd, repAll] at hX
    cases hX
  | cons d ds =>
    rw [hd] at hX
    rw [repAll, if_neg (by simp)] at hX
    injection hX with h1 h2
    have hend := HP.endB _ _ hn
    have hd0 : l0[n]? = some d := by
      have := getElem?_drop_add l0 n 0
      rw [hd] at this
      simpa using this.symm
    rw [hd0] at hend
    rw [← h1]
    simpa [endBoundary] using hend

theorem noScan_repAll_self (len : List Char → Option Nat) (rep : List Char)
    (H : LenOK len) (hrep0 : rep[0]? = some '[')
    (hscan : ∀ pw t, noScan len pw (rep ++ t) = noScan len false t) :
    ∀ (pw : Bool) (l : List Char), noScan len pw (repAll len rep pw l) = true := by
  intro pw l
  induction pw, l using repAll.induct len rep with
  | case1 pw => rw [repAll, noScan]
  | case2 pw c rest h ih =>
    obtain ⟨hpwf, hsome⟩ := h
    obtain ⟨n, hn⟩ := Option.isSome_iff_exists.mp hsome
    have hge2 := H.ge2 _ _ hn
    have hdrop : max 1 ((len (c :: rest)).getD 1) = n := by
      simp [hn]
      omega
    rw [repAll, if_pos ⟨hpwf, hsome⟩, hdrop]
    rw [hscan]
    rw [hdrop] at ih
    exact noScan_false_of_head_nonword len H _
      (repAll_head_nonword len rep H (c :: rest) n hn) ih
  | case3 pw c rest h ih =>
    rw [repAll, if_neg h]
    rw [noScan]
    simp only [Bool.and_eq_true]
    refine ⟨?_, ih⟩
    simp only [Bool.or_eq_true]
    cases hpw : pw with
    | true => left; rfl
    | false =>
      right
      have hnone : len (c :: rest) = none := by
        cases hx : len (c :: rest) with
        | none => rfl
        | some m =>
          exfalso
          exact h ⟨hpw, by simp [hx]⟩
      rw [len_transfer_none len H len rep hrep0 c rest hnone]
      rfl

theorem noScan_repAll_other (lenP : List Char → Option Nat) (rep : List Char)
    (lenQ : List Char → Option Nat) (HQ : LenOK lenQ) (HP : LenOK lenP)
    (hrep0 : rep[0]? = some '[')
    (hscanQ : ∀ pw t, noScan lenQ pw (rep ++ t) = noScan lenQ false t) :
    ∀ (pw : Bool) (l : List Char), noScan lenQ pw l = true →
      noScan lenQ pw (repAll lenP rep pw l) = true := by
  intro pw l
  induction pw, l using repAll.induct lenP rep with
  | case1 pw =>
    intro h
    rw [repAll]
    exact h
  | case2 pw c rest h ih =>
    intro hq
    obtain ⟨hpwf, hsome⟩ := h
    obtain ⟨n, hn⟩ := Option.isSome_iff_exists.mp hsome
    have hge2 := HP.ge2 _ _ hn
    have hdrop : max 1 ((lenP (c :: rest)).getD 1) = n := by
      simp [hn]
      omega
    rw [repAll, if_pos ⟨hpwf, hsome⟩, hdrop]
    rw [hscanQ]
    have hsuffix : noScan lenQ (((c :: rest).take n).getLast?.elim pw isWordC)
        ((c :: rest).drop n) = true := by
      have happ := noScan_append_true lenQ ((c :: rest).take n) pw ((c :: rest).drop n)
      rw [List.take_append_drop] at happ
      exact happ hq
    have htrue : noScan lenQ true ((c :: rest).drop n) = true :=
      noScan_true_of_any _ _ _ hsuffix
    rw [hdrop] at ih
    exact noScan_false_of_head_nonword lenQ HQ _
      (repAll_head_nonword lenP rep HP (c :: rest) n hn) (ih htrue)
  | case3 pw c rest h ih =>
    intro hq
    rw [repAll, if_neg h]
    rw [noScan] at hq ⊢
    simp only [Bool.and_eq_true] at hq ⊢
    refine ⟨?_, ih hq.2⟩
    simp only [Bool.or_eq_true]
    rcases Bool.or_eq_true _ _ |>.mp hq.1 with hpw | hnoneb
    · left; exact hpw
    · right
      have hnone : lenQ (c :: rest) = none := Option.isNone_iff_eq_none.mp hnoneb
      rw [len_transfer_none lenQ HQ lenP rep hrep0 c rest hnone]
      rfl

theorem ipLen_cons_nondigit (c : Char) (t : List Char) (h : c.isDigit = false) :
    ipLen (c :: t) = none := by
  have hrun : runLength Char.isDigit (c :: t) = 0 := by
    rw [runLength, if_neg]
    simp [h]
  have hoct : octDot (c :: t) = none := by
    unfold octDot
    dsimp only
    rw [if_neg]
    rw [hrun]
    omega
  unfold ipLen
  rw [hoct]

theorem noScan_ip_append_nondigit (a : List Char) (h : ∀ c ∈ a, c.isDigit = false) :
    ∀ (pw : Bool) (t : List Char),
      noScan ipLen pw (a ++ t) = noScan ipLen (a.getLast?.elim pw isWordC) t := by
  induction a with
  | nil => intro pw t; simp
  | cons c a' ih =>
    intro pw t
    rw [List.cons_append, noScan,
      ipLen_cons_nondigit c (a' ++ t) (h c (List.mem_cons_self _ _))]
    simp only [Option.isNone_none, Bool.or_true, Bool.true_and]
    have := ih (fun x hx => h x (List.mem_cons_of_mem _ hx)) (isWordC c) t
    cases a' with
    | nil => simp only [List.nil_append] at this ⊢; exact this
    | cons d a'' => simpa [List.getLast?_cons_cons] using this

theorem ipScan_redip (pw : Bool) (t : List Char) :
    noScan ipLen pw (REDIP ++ t) = noScan ipLen false t := by
  rw [noScan_ip_append_nondigit REDIP (by decide) pw t]
  rfl

theorem ipScan_redmac (pw : Bool) (t : List Char) :
    noScan ipLen pw (REDMAC ++ t) = noScan ipLen false t := by
  rw [noScan_ip_append_nondigit REDMAC (by decide) pw t]
  rfl

theorem noScan_cons_skip (len : List Char → Option Nat) (pw : Bool) (c : Char)
    (rest : List Char) (h : len (c :: rest) = none) :
    noScan len pw (c :: rest) = noScan len (isWordC c) rest := by
  rw [noScan]
  simp [h]

theorem macScan_redmac (pw : Bool) (t : List Char) :
    noScan macLen pw (REDMAC ++ t) = noScan macLen false t := by
  show noScan macLen pw ('[' :: 'R' :: 'E' :: 'D' :: 'A' :: 'C' :: 'T' :: 'E' :: 'D' ::
    '-' :: 'M' :: 'A' :: 'C' :: ']' :: t) = noScan macLen false t
  rw [noScan_cons_skip _ _ _ _ (by simp [macLen, hexPairColon, isHexC])]
  rw [noScan_cons_skip _ _ _ _ (by simp [macLen, hexPairColon, isHexC])]
  rw [noScan_cons_skip _ _ _ _ (by simp [macLen, hexPairColon, isHexC])]
  rw [noScan_cons_skip _ _ _ _ (by simp [macLen, hexPairColon, isHexC])]
  rw [noScan_cons_skip _ _ _ _ (by simp [macLen, hexPairColon, isHexC])]
  rw [noScan_cons_skip _ _ _ _ (by simp [macLen, hexPairColon, isHexC])]
  rw [noScan_cons_skip _ _ _ _ (by simp [macLen, hexPairColon, isHexC])]
  rw [noScan_cons_skip _ _ _ _ (by simp [macLen, hexPairColon, isHexC])]
  rw [noScan_cons_skip _ _ _ _ (by simp [macLen, hexPairColon, isHexC])]
  rw [noScan_cons_skip _ _ _ _ (by simp [macLen, hexPairColon, isHexC])]
  rw [noScan_cons_skip _ _ _ _ (by simp [macLen, hexPairColon, isHexC])]
  rw [noScan_cons_skip _ _ _ _ (by simp [macLen, hexPairColon, isHexC])]
  rw [noScan_cons_skip _ _ _ _ (by simp [macLen, hexPairColon, isHexC])]
  rw [noScan_cons_skip _ _ _ _ (by simp [macLen, hexPairColon, isHexC])]
  rfl

theorem noIp_ipReplaceAll (l : List Char) : noScan ipLen false (ipReplaceAll l) = true :=
  noScan_repAll_self ipLen REDIP ipLen_ok rfl ipScan_redip false l

theorem noMac_macReplaceAll (l : List Char) : noScan macLen false (macReplaceAll l) = true :=
  noScan_repAll_self macLen REDMAC macLen_ok rfl macScan_redmac false l

theorem noIp_macReplaceAll (l : List Char) (h : noScan ipLen false l = true) :
    noScan ipLen false (macReplaceAll l) = true :=
  noScan_repAll_other macLen REDMAC ipLen ipLen_ok macLen_ok rfl ipScan_redmac false l h

theorem scrubSensitive_idem (l : List Char) :
    scrubSensitive (scrubSensitive l) = scrubSensitive l := by
  by_cases hl : l = []
  · subst hl
    rfl
  · have hsl : scrubSensitive l = macReplaceAll (ipReplaceAll l) := by
      rw [scrubSensitive, if_neg hl]
    by_cases hs : scrubSensitive l = []
    · rw [scrubSensitive, if_pos hs]
    · rw [scrubSensitive, if_neg hs, hsl]
      have hip : noScan ipLen false (macReplaceAll (ipReplaceAll l)) = true :=
        noIp_macReplaceAll _ (noIp_ipReplaceAll l)
      have hipid : ipReplaceAll (macReplaceAll (ipReplaceAll l)) =
          macReplaceAll (ipReplaceAll l) :=
        repAll_id_of_noScan ipLen REDIP false _ hip
      rw [hipid]
      exact repAll_id_of_noScan macLen REDMAC false _ (noMac_macReplaceAll (ipReplaceAll l))

theorem redactEvidence_idem (ev : List (List Char)) :
    redactEvidence (redactEvidence ev) = redactEvidence ev := by
  by_cases h : ev = []
  · subst h
    rfl
  · have hev : redactEvidence ev = ev.map scrubSensitive := by
      rw [redactEvidence, if_neg h]
    by_cases h2 : redactEvidence ev = []
    · rw [redactEvidence, if_pos h2]
    · rw [redactEvidence, if_neg h2, hev, List.map_map]
      refine List.map_congr_left ?_
      intro a _
      exact scrubSensitive_idem a

/-- Claim C9: snapshot redaction is idempotent — redacting twice gives
the same snapshot (in particular the same fingerprint summary, model,
prompt, and evidence) as redacting once. -/
theorem c9_redact_snapshot_idempotent (snap : Snapshot) :
    redactSnapshot (redactSnapshot snap) = redactSnapshot snap := by
  obtain ⟨host, red, console⟩ := snap
  cases console with
  | none => rfl
  | some c =>
    obtain ⟨port, baud, fp, detail, bw, br, lp, th, tt⟩ := c
    cases detail with
    | none => simp [redactSnapshot, scrubSensitive_idem]
    | some d => simp [redactSnapshot, scrubSensitive_idem, redactEvidence_idem]
